import Mathlib

/-!
Verification development for the unrolled-ADMM Gaussian deconvolution engine
(`models/Unrolled_ADMM_Gaussian.py` together with `utils/utils_torch.py`).

The embedding works in exact arithmetic: real tensor entries are rationals
and complex tensor entries are pairs of rationals (`CQ`).  A single-channel
spatial tensor of height `h` and width `w` is a function
`Fin h → Fin w → ℚ` (real) or `Fin h → Fin w → CQ` (complex); the batch and
channel dimensions of the PyTorch tensors are modelled separately where a
claim needs them.  The discrete Fourier transform is parametrised by the
twiddle factor `ω` (for `torch.fft.fft2`, `ω = exp(-2πi/n)`); no theorem
below unfolds the transform, so the parametrisation is harmless, and it
keeps every definition computable.
-/

/-- Complex numbers with rational coordinates: the exact-arithmetic model of
a complex tensor entry. -/
@[ext] structure CQ where
  re : ℚ
  im : ℚ
  deriving DecidableEq, Repr

def CQ.zero : CQ := ⟨0, 0⟩

def CQ.add (a b : CQ) : CQ := ⟨a.re + b.re, a.im + b.im⟩

def CQ.mul (a b : CQ) : CQ := ⟨a.re * b.re - a.im * b.im, a.re * b.im + a.im * b.re⟩

/-- Complex conjugate, the model of `torch.conj`. -/
def CQ.conj (a : CQ) : CQ := ⟨a.re, -a.im⟩

/-- Squared magnitude `|a|²`: the exact value of `torch.abs(a)**2`. -/
def CQ.normSq (a : CQ) : ℚ := a.re * a.re + a.im * a.im

/-- Division of a complex entry by a real scalar (elementwise complex/real
division, as in `rhs/lhs` with a real `lhs` tensor).  Division by zero
follows the junk convention of `ℚ` (result `0`); the safety claims show the
divisor is nonzero on the guarded paths. -/
def CQ.divR (a : CQ) (r : ℚ) : CQ := ⟨a.re / r, a.im / r⟩

def CQ.smul (r : ℚ) (a : CQ) : CQ := ⟨r * a.re, r * a.im⟩

def CQ.pow (a : CQ) : ℕ → CQ
  | 0 => ⟨1, 0⟩
  | n + 1 => (CQ.pow a n).mul a

def CQ.ofQ (r : ℚ) : CQ := ⟨r, 0⟩

/-- Sum of a finitely indexed family of complex entries, componentwise. -/
def CQ.sum {ι : Type} [Fintype ι] (f : ι → CQ) : CQ :=
  ⟨Finset.univ.sum (fun a => (f a).re), Finset.univ.sum (fun a => (f a).im)⟩

/-- Real-valued spatial tensor (one batch element, one channel). -/
def RImg (h w : ℕ) : Type := Fin h → Fin w → ℚ

/-- Complex-valued spatial tensor (one batch element, one channel). -/
def Img (h w : ℕ) : Type := Fin h → Fin w → CQ

def toC {h w : ℕ} (x : RImg h w) : Img h w := fun i j => CQ.ofQ (x i j)

/-- Real part of a complex tensor: the model of `.real`. -/
def reIm {h w : ℕ} (x : Img h w) : RImg h w := fun i j => (x i j).re

/-- The all-zero image of the shape of `y`: `torch.zeros_like(y)`. -/
def zerosLike {h w : ℕ} (_y : RImg h w) : RImg h w := fun _ _ => 0

/-- Elementwise clamp to non-negative values:
`torch.maximum(y, torch.zeros_like(y))`. -/
def clampNonneg {h w : ℕ} (y : RImg h w) : RImg h w := fun i j => max (y i j) 0

def cMul {h w : ℕ} (x y : Img h w) : Img h w := fun i j => (x i j).mul (y i j)

def cAdd {h w : ℕ} (x y : Img h w) : Img h w := fun i j => (x i j).add (y i j)

def cConj {h w : ℕ} (x : Img h w) : Img h w := fun i j => (x i j).conj

/-- Elementwise squared magnitude `torch.abs(H)**2`. -/
def absSq {h w : ℕ} (x : Img h w) : RImg h w := fun i j => (x i j).normSq

/-- Elementwise complex/real division `rhs/lhs` with a real `lhs`. -/
def cDivR {h w : ℕ} (x : Img h w) (d : RImg h w) : Img h w :=
  fun i j => (x i j).divR (d i j)

/-- Roll of a 1-D index by `s` positions: the output at index `i` reads the
input at index `i - s (mod n)`, matching `torch.roll(x, shifts=s, dims=d)`. -/
def rollIdx {n : ℕ} (s : ℕ) (i : Fin n) : Fin n :=
  ⟨(i.val + (n - s % n)) % n, Nat.mod_lt _ (Nat.pos_of_ne_zero (fun hn => (hn ▸ i).elim0))⟩

/-- 2-D roll along the two spatial axes by `(sh, sw)`. -/
def roll2 {h w : ℕ} {α : Type} (sh sw : ℕ) (x : Fin h → Fin w → α) :
    Fin h → Fin w → α :=
  fun i j => x (rollIdx sh i) (rollIdx sw j)

/-- `torch.fft.fftshift(x, dim=(-2,-1))`: roll each spatial axis by
`size // 2`. -/
def fftshift2 {h w : ℕ} {α : Type} (x : Fin h → Fin w → α) : Fin h → Fin w → α :=
  roll2 (h / 2) (w / 2) x

/-- `torch.fft.ifftshift(x, dim=(-2,-1))`: roll each spatial axis by
`-(size // 2)`, i.e. by `size - size // 2` positions forward. -/
def ifftshift2 {h w : ℕ} {α : Type} (x : Fin h → Fin w → α) : Fin h → Fin w → α :=
  roll2 (h - h / 2) (w - w / 2) x

/-- Modelled from the spec: `pad_double` (imported from `utils.utils_torch`
but not present in the sources) zero-pads an image symmetrically to twice
its linear extent along both axes, centered, splitting the required pad of
`h` into `⌊h/2⌋ before / ⌈h/2⌉ after` on each axis. -/
def padDouble {h w : ℕ} (x : RImg h w) : RImg (2 * h) (2 * w) :=
  fun i j =>
    if hc : h / 2 ≤ i.val ∧ i.val < h / 2 + h ∧ w / 2 ≤ j.val ∧ j.val < w / 2 + w then
      x ⟨i.val - h / 2, by omega⟩ ⟨j.val - w / 2, by omega⟩
    else 0

/-- Modelled from the spec: `crop_half` (imported from `utils.utils_torch`
but not present in the sources) extracts the centered half-size region,
inverting `pad_double`. -/
def cropHalf {h w : ℕ} (x : RImg (2 * h) (2 * w)) : RImg h w :=
  fun i j => x ⟨h / 2 + i.val, by omega⟩ ⟨w / 2 + j.val, by omega⟩

/-- 2-D discrete Fourier transform with twiddle factor `ωr` along rows and
`ωc` along columns: entry `(k, l)` is `∑ i j, x i j · ωr^(i·k) · ωc^(j·l)`.
`torch.fft.fft2` is the instance `ωr = exp(-2πi/h)`, `ωc = exp(-2πi/w)`. -/
def fft2 {h w : ℕ} (ωr ωc : CQ) (x : Img h w) : Img h w :=
  fun k l => CQ.sum (fun p : Fin h × Fin w =>
    ((x p.1 p.2).mul (ωr.pow (p.1.val * k.val))).mul (ωc.pow (p.2.val * l.val)))

/-- 2-D inverse discrete Fourier transform with twiddle factor `ωir`/`ωic`
(for `torch.fft.ifft2`, the conjugate roots `exp(+2πi/n)`) and the `1/(h·w)`
normalisation. -/
def ifft2 {h w : ℕ} (ωir ωic : CQ) (x : Img h w) : Img h w :=
  fun k l => CQ.smul (1 / ((h : ℚ) * (w : ℚ)))
    (CQ.sum (fun p : Fin h × Fin w =>
      ((x p.1 p.2).mul (ωir.pow (p.1.val * k.val))).mul (ωic.pow (p.2.val * l.val))))

/-- Twiddle factors for the forward and inverse transforms at the working
size `2h × 2w`; bundles the parameters of `fft2`/`ifft2` used by one
controller invocation. -/
structure FFTCtx where
  fr : CQ
  fc : CQ
  ir : CQ
  ic : CQ

/-- Elementwise sum of real tensors. -/
def rAdd {h w : ℕ} (x y : RImg h w) : RImg h w := fun i j => x i j + y i j

/-- Elementwise difference of real tensors. -/
def rSub {h w : ℕ} (x y : RImg h w) : RImg h w := fun i j => x i j - y i j

/-- Scalar multiple of a real tensor (`rho*z` with a scalar `rho`). -/
def rScale {h w : ℕ} (r : ℚ) (x : RImg h w) : RImg h w := fun i j => r * x i j

/-- The common spectrum computation of the controller,
`fft2(ifftshift(pad_double(x), dim=(-2,-1)))` (lines 123-124 of
`Unrolled_ADMM_Gaussian.py`), followed for `Y` and `H` alike. -/
def spectrumOf {h w : ℕ} (ctx : FFTCtx) (x : RImg h w) : Img (2 * h) (2 * w) :=
  fft2 ctx.fr ctx.fc (toC (ifftshift2 (padDouble x)))

/-- The elementwise denominator `lhs = rho + HtH` of
`X_Update_Gaussian.forward`. -/
def xLhs {h w : ℕ} (rho : ℚ) (HtH : RImg h w) : RImg h w :=
  fun k l => rho + HtH k l

/-- `X_Update_Gaussian.forward`: the closed-form frequency-domain solve of
one ADMM iteration, translated line by line from the source:
`lhs = rho + HtH`, `rhs = Ht*Y + fft2(ifftshift(pad_double(rho*z-u)))`,
`x = fftshift(ifft2(rhs/lhs)).real`, `return crop_half(x)`. -/
def xUpdate {h w : ℕ} (ctx : FFTCtx) (Y Ht : Img (2 * h) (2 * w))
    (HtH : RImg (2 * h) (2 * w)) (z u : RImg h w) (rho : ℚ) : RImg h w :=
  let lhs := xLhs rho HtH
  let rhs := cAdd (cMul Ht Y)
    (fft2 ctx.fr ctx.fc (toC (ifftshift2 (padDouble (rSub (rScale rho z) u)))))
  let x := reIm (fftshift2 (ifft2 ctx.ir ctx.ic (cDivR rhs lhs)))
  cropHalf x

/-- The per-iteration solver exactly as the specification words it:
`x = cropHalf(inverse-shift(IFFT((Ht·Y + FFT(shift(padDouble(ρ·z − u)))) /
(ρ + HtH))))`, with only the real part of the inverse transform retained.
Stated as a second definition to compare with `xUpdate` (the source applies
`fftshift`, the spec an inverse shift, on the way out). -/
def xUpdateClaim {h w : ℕ} (ctx : FFTCtx) (Y Ht : Img (2 * h) (2 * w))
    (HtH : RImg (2 * h) (2 * w)) (z u : RImg h w) (rho : ℚ) : RImg h w :=
  cropHalf (reIm (ifftshift2 (ifft2 ctx.ir ctx.ic
    (cDivR
      (cAdd (cMul Ht Y)
        (fft2 ctx.fr ctx.fc (toC (ifftshift2 (padDouble (rSub (rScale rho z) u))))))
      (xLhs rho HtH)))))

/-- The elementwise denominator `lhs = HtH + (1/alpha)` of
`Unrolled_ADMM_Gaussian.init_l2`.  `1/alpha` follows the junk convention of
`ℚ` at `alpha = 0`; `initDivByZero` records when a zero divisor occurs. -/
def initL2Lhs {h w : ℕ} (HtH : RImg h w) (alpha : ℚ) : RImg h w :=
  fun k l => HtH k l + 1 / alpha

/-- A division performed by `init_l2` has a zero divisor: either the scalar
reciprocal `1/alpha` divides by zero, or some elementwise bin of
`rhs/lhs` does. -/
def initDivByZero {h w : ℕ} (HtH : RImg h w) (alpha : ℚ) : Prop :=
  alpha = 0 ∨ ∃ k l, initL2Lhs HtH alpha k l = 0

/-- `Unrolled_ADMM_Gaussian.init_l2`: the Wiener-deconvolution warm start,
`rhs = Y * Ht`, `lhs = HtH + (1/alpha)`,
`x0 = fftshift(ifft2(rhs/lhs)).real`, `return crop_half(x0)`. -/
def init_l2 {h w : ℕ} (ctx : FFTCtx) (Y Ht : Img (2 * h) (2 * w))
    (HtH : RImg (2 * h) (2 * w)) (alpha : ℚ) : RImg h w :=
  let rhs := cMul Y Ht
  let lhs := initL2Lhs HtH alpha
  let x0 := reIm (fftshift2 (ifft2 ctx.ir ctx.ic (cDivR rhs lhs)))
  cropHalf x0

/-- Rectified linear unit `nn.ReLU` on a scalar. -/
def relu (x : ℚ) : ℚ := max x 0

/-- Affine layer `nn.Linear`: `y = W·v + b`. -/
def linear {a b : ℕ} (W : Fin b → Fin a → ℚ) (bias : Fin b → ℚ)
    (v : Fin a → ℚ) : Fin b → ℚ :=
  fun o => bias o + Finset.univ.sum (fun i => W o i * v i)

/-- The symmetric zero-padding of the kernel to the fixed `128 × 128`
canonical size in `SubNet.forward`:
`h1, h2 = floor(0.5*(128-h)), ceil(0.5*(128-h))` (similarly for `w`),
`k_pad = F.pad(kernel, (w1,w2,h1,h2), "constant", 0)`.  Matches `F.pad`
for kernels no larger than `128` on each axis (the only sizes the
controller feeds it). -/
def padTo128 {kh kw : ℕ} (kernel : RImg kh kw) : RImg 128 128 :=
  fun i j =>
    if hc : (128 - kh) / 2 ≤ i.val ∧ i.val - (128 - kh) / 2 < kh ∧
        (128 - kw) / 2 ≤ j.val ∧ j.val - (128 - kw) / 2 < kw then
      kernel ⟨i.val - (128 - kh) / 2, hc.2.1⟩ ⟨j.val - (128 - kw) / 2, hc.2.2.2⟩
    else 0

/-- Learned parameters of `SubNet` (the penalty-weight predictor), for a
schedule of length `n`.  The convolutional feature extractor
(`Down(1,4); Down(4,8); Down(8,16); Down(16,16)` followed by the flatten to
`16*8*8 = 1024` features) is an opaque learned map `convFeat`, its
convolution/batch-norm parameters folded in (inference-mode semantics);
`W1/b1, W2/b2, W3/b3` are the three `nn.Linear` layers of the MLP head, and
`act` is the final `nn.Softplus` activation (a transcendental function,
kept abstract; the positivity theorem hypothesises only its non-negative
range).  `tfr`/`tfc` are the `fft2` twiddle factors at the fixed `128×128`
size. -/
structure SubNetP (n : ℕ) where
  tfr : CQ
  tfc : CQ
  convFeat : RImg 128 128 → Fin 1024 → ℚ
  W1 : Fin 64 → Fin 1025 → ℚ
  b1 : Fin 64 → ℚ
  W2 : Fin 64 → Fin 64 → ℚ
  b2 : Fin 64 → ℚ
  W3 : Fin n → Fin 64 → ℚ
  b3 : Fin n → ℚ
  act : ℚ → ℚ

/-- `SubNet.forward`: pad the kernel to `128×128`, take
`HtH = |fft2(ifftshift(k_pad))|²`, extract convolutional features, append
the noise scalar `alpha`, run the three-layer MLP with ReLU activations and
the final positive activation, and add the `1e-6` floor
(`output = self.mlp(x) + 1e-6`).  The float literal `1e-6` is the design
value `1/1000000` in exact arithmetic. -/
def subnetForward {n kh kw : ℕ} (p : SubNetP n) (kernel : RImg kh kw)
    (alpha : ℚ) : Fin n → ℚ :=
  let k_pad := padTo128 kernel
  let H := fft2 p.tfr p.tfc (toC (ifftshift2 k_pad))
  let HtH := absSq H
  let feat := p.convFeat HtH
  let xin : Fin 1025 → ℚ := fun i =>
    if hlt : i.val < 1024 then feat ⟨i.val, hlt⟩ else alpha
  let y1 := fun o => relu (linear p.W1 p.b1 xin o)
  let y2 := fun o => relu (linear p.W2 p.b2 y1 o)
  let y3 := linear p.W3 p.b3 y2
  fun i => p.act (y3 i) + 1 / 1000000

/-- The initial value of the fixed-mode schedule parameter:
`nn.Parameter(torch.ones(size=[n_iters]))`. -/
def initRhoIters (n : ℕ) : Fin n → ℚ := fun _ => 1

/-- The `Unrolled_ADMM_Gaussian` module state for images of shape `h × w`
and `n` unrolled iterations: the weight-source flag `subnet`, the predictor
parameters, the fixed-mode learned constants `rho_iters` (initialised to
ones, unconstrained thereafter), and the learned denoiser
(`Z_Update_ResUNet`, an opaque image-to-image operator per the spec's
collaborator boundary). -/
structure ADMMNet (h w n : ℕ) where
  subnet : Bool
  subnetP : SubNetP n
  rho_iters : Fin n → ℚ
  denoiseF : RImg h w → RImg h w

/-- The penalty-weight schedule the controller uses:
`self.init(kernel, alpha)` when `self.subnet`, else the learned constants
`self.rho_iters`. -/
def schedule {h w n : ℕ} (net : ADMMNet h w n) (kernel : RImg h w)
    (alpha : ℚ) : Fin n → ℚ :=
  if net.subnet then subnetForward net.subnetP kernel alpha else net.rho_iters

/-- The `for i in range(self.n_iters)` loop body of
`Unrolled_ADMM_Gaussian.forward`, one cons per iteration:
`x = self.X(Y, Ht, HtH, z, u, rho)`, `z = self.Z(x)`, `u = u + x - z`,
`x_list.append(z)`; returns the built `x_list`. -/
def runIters {h w : ℕ} (ctx : FFTCtx) (dn : RImg h w → RImg h w)
    (Y Ht : Img (2 * h) (2 * w)) (HtH : RImg (2 * h) (2 * w)) :
    List ℚ → RImg h w → RImg h w → List (RImg h w)
  | [], _, _ => []
  | rho :: rest, z, u =>
    let x := xUpdate ctx Y Ht HtH z u rho
    let z' := dn x
    let u' := rAdd u (rSub x z')
    z' :: runIters ctx dn Y Ht HtH rest z' u'

/-- `Unrolled_ADMM_Gaussian.forward`: clamp the observation, compute the
padded spectra `Y`, `H`, `Ht`, `HtH`, obtain the weight schedule, warm-start
`z` by Wiener deconvolution, zero-initialise the dual `u`, run the unrolled
iterations, and return `x_list[-1]` — `getLast?`, since negative indexing of
an empty Python list raises `IndexError` (the `n = 0` case). -/
def forward {h w n : ℕ} (net : ADMMNet h w n) (ctx : FFTCtx)
    (y kernel : RImg h w) (alpha : ℚ) : Option (RImg h w) :=
  let yc := clampNonneg y
  let Y := spectrumOf ctx yc
  let H := spectrumOf ctx kernel
  let Ht := cConj H
  let HtH := absSq H
  let sched := schedule net kernel alpha
  let z := init_l2 ctx Y Ht HtH alpha
  let u := zerosLike y
  (runIters ctx net.denoiseF Y Ht HtH (List.ofFn sched) z u).getLast?

/-- One controller iteration as the specification words it: from `(z, u)`
and the iteration's weight `ρ`, `x := solve(z, u, ρ)`, `z' := denoise(x)`,
`u' := u + x − z'`. -/
def admmSpecStep {h w : ℕ} (ctx : FFTCtx) (dn : RImg h w → RImg h w)
    (Y Ht : Img (2 * h) (2 * w)) (HtH : RImg (2 * h) (2 * w)) (rho : ℚ)
    (s : RImg h w × RImg h w) : RImg h w × RImg h w :=
  let x := xUpdate ctx Y Ht HtH s.1 s.2 rho
  let z' := dn x
  (z', rAdd s.2 (rSub x z'))

/-- The specification's iteration: fold `admmSpecStep` over the schedule,
starting from the warm-started `(z, u)` pair. -/
def admmSpecRun {h w : ℕ} (ctx : FFTCtx) (dn : RImg h w → RImg h w)
    (Y Ht : Img (2 * h) (2 * w)) (HtH : RImg (2 * h) (2 * w))
    (rhos : List ℚ) (s : RImg h w × RImg h w) : RImg h w × RImg h w :=
  rhos.foldl (fun t rho => admmSpecStep ctx dn Y Ht HtH rho t) s

/-- PyTorch broadcasting of one dimension: sizes must be equal or one of
them `1`; otherwise the elementwise operation raises a size-mismatch
error. -/
def bcastDim (a b : ℕ) : Option ℕ :=
  if a = b then some a else if a = 1 then some b else if b = 1 then some a else none

/-- PyTorch broadcasting of the two spatial dimensions of an elementwise
binary operation. -/
def bcastS (s t : ℕ × ℕ) : Option (ℕ × ℕ) := do
  let r ← bcastDim s.1 t.1
  let c ← bcastDim s.2 t.2
  pure (r, c)

/-- Shape action of `pad_double`. -/
def padDoubleS (s : ℕ × ℕ) : ℕ × ℕ := (2 * s.1, 2 * s.2)

/-- Shape action of `crop_half`. -/
def cropHalfS (s : ℕ × ℕ) : ℕ × ℕ := (s.1 / 2, s.2 / 2)

/-- Shape semantics of `init_l2`: `Y * Ht` broadcasts `Y` against `Ht`,
`rhs/lhs` broadcasts against the `HtH` shape (the scalar `1/alpha` addend
keeps `lhs` at `HtH`'s shape), then `crop_half`.  The FFTs, shifts and `.real`
preserve shape. -/
def initL2S (Ys Hs : ℕ × ℕ) : Option (ℕ × ℕ) := do
  let rhs ← bcastS Ys Hs
  let q ← bcastS rhs Hs
  pure (cropHalfS q)

/-- Shape semantics of `X_Update_Gaussian.forward` (`rho` is a scalar, so
`lhs` has `HtH`'s shape and `rho*z` has `z`'s): `rho*z - u`, `pad_double`,
`Ht*Y`, the numerator sum, the division by `lhs`, and `crop_half`. -/
def xUpdateS (Ys Hs zs us : ℕ × ℕ) : Option (ℕ × ℕ) := do
  let zz ← bcastS zs us
  let hy ← bcastS Hs Ys
  let rhs ← bcastS hy (padDoubleS zz)
  let q ← bcastS rhs Hs
  pure (cropHalfS q)

/-- Shape semantics of the unrolled iteration loop: the denoiser is
shape-preserving (spec 4.3), and the dual update broadcasts `u + x` then
`- z`. -/
def shapeLoop (Ys Hs : ℕ × ℕ) : ℕ → ℕ × ℕ → ℕ × ℕ → Option ((ℕ × ℕ) × (ℕ × ℕ))
  | 0, z, u => some (z, u)
  | k + 1, z, u => do
    let x ← xUpdateS Ys Hs z u
    let z' := x
    let ux ← bcastS u x
    let u' ← bcastS ux z'
    shapeLoop Ys Hs k z' u'

/-- Shape semantics of `Unrolled_ADMM_Gaussian.forward` for a spatial
observation shape `ys` and kernel shape `ks`: the clamp (same-shape
`maximum`), the two `pad_double`-then-FFT spectra, the warm start, the
zero dual of the observation's shape, the loop, and the final `x_list[-1]`
(which fails when the loop body never ran). -/
def forwardS (n : ℕ) (ys ks : ℕ × ℕ) : Option (ℕ × ℕ) := do
  let yc ← bcastS ys ys
  let Ys := padDoubleS yc
  let Hs := padDoubleS ks
  let z0 ← initL2S Ys Hs
  let u0 := ys
  let s ← shapeLoop Ys Hs n z0 u0
  if n = 0 then none else pure s.1

/-- Batched real tensor `[B, 1, h, w]`: one `RImg` per batch index. -/
def BRImg (B h w : ℕ) : Type := Fin B → RImg h w

/-- Batched complex tensor `[B, 1, h, w]`. -/
def BImg (B h w : ℕ) : Type := Fin B → Img h w

/-- `SubNet.forward` on a batched kernel/noise-scalar input.  Every
operation it performs — `F.pad`, `fft2(..., dim=(-2,-1))`, `abs²`, the
convolution stack in inference mode, `view`, `cat(..., axis=2)`, the
`nn.Linear` layers acting on the last axis, and the activations — acts
independently on each leading (batch) index, so the batched module is the
per-index application of the single-element one. -/
def bSubnetForward {B n kh kw : ℕ} (p : SubNetP n) (kernel : BRImg B kh kw)
    (alpha : Fin B → ℚ) : Fin B → Fin n → ℚ :=
  fun b => subnetForward p (kernel b) (alpha b)

/-- The batched weight schedule: the predictor output per batch element
when `subnet`, else the single learned constant vector shared by the whole
batch (`self.rho_iters[i]` is one scalar for all elements). -/
def bSchedule {B h w n : ℕ} (net : ADMMNet h w n) (kernel : BRImg B h w)
    (alpha : Fin B → ℚ) : Fin B → Fin n → ℚ :=
  if net.subnet then bSubnetForward net.subnetP kernel alpha else fun _ => net.rho_iters

/-- The batched iteration loop: `self.X`, `self.Z` and the dual update act
on `[B, 1, h, w]` tensors; each constituent tensor operation (FFTs over
`dim=(-2,-1)`, elementwise arithmetic, the denoiser network in inference
mode) acts independently per batch index, while the iteration's weight may
differ per batch element (`rho_iters[:,:,:,i].view(-1,1,1,1)`). -/
def bRunIters {B h w : ℕ} (ctx : FFTCtx) (dn : RImg h w → RImg h w)
    (Y Ht : BImg B (2 * h) (2 * w)) (HtH : Fin B → RImg (2 * h) (2 * w)) :
    List (Fin B → ℚ) → BRImg B h w → BRImg B h w → List (BRImg B h w)
  | [], _, _ => []
  | rho :: rest, z, u =>
    let x := fun b => xUpdate ctx (Y b) (Ht b) (HtH b) (z b) (u b) (rho b)
    let z' := fun b => dn (x b)
    let u' := fun b => rAdd (u b) (rSub (x b) (z' b))
    z' :: bRunIters ctx dn Y Ht HtH rest z' u'

/-- `Unrolled_ADMM_Gaussian.forward` on a batch of `B` (image, kernel,
noise-scalar) triples: the same pipeline as `forward`, with every tensor
carrying a leading batch index and every operation acting per index. -/
def bForward {B h w n : ℕ} (net : ADMMNet h w n) (ctx : FFTCtx)
    (y kernel : BRImg B h w) (alpha : Fin B → ℚ) : Option (BRImg B h w) :=
  let yc := fun b => clampNonneg (y b)
  let Y := fun b => spectrumOf ctx (yc b)
  let H := fun b => spectrumOf ctx (kernel b)
  let Ht := fun b => cConj (H b)
  let HtH := fun b => absSq (H b)
  let sched := bSchedule net kernel alpha
  let z := fun b => init_l2 ctx (Y b) (Ht b) (HtH b) (alpha b)
  let u := fun b => zerosLike (y b)
  (bRunIters ctx net.denoiseF Y Ht HtH (List.ofFn (fun i b => sched b i)) z u).getLast?

/-- Concrete predictor parameters for evaluation: trivial learned weights,
unit twiddle factors, ReLU as the positivity-preserving final activation. -/
def testSubNetP : SubNetP 1 :=
  ⟨⟨1, 0⟩, ⟨1, 0⟩, fun _ _ => 0, fun _ _ => 0, fun _ => 0, fun _ _ => 0,
    fun _ => 0, fun _ _ => 0, fun _ => 0, relu⟩

/-- Concrete controller in fixed-weight mode with the initial all-ones
schedule and the identity denoiser, on `1 × 1` images, one iteration. -/
def testNet : ADMMNet 1 1 1 := ⟨false, testSubNetP, initRhoIters 1, id⟩

/-- Concrete controller in fixed-weight mode whose learned constant has
drifted to `-1` (a value nothing in the module prevents). -/
def negNet : ADMMNet 1 1 1 := ⟨false, testSubNetP, fun _ => -1, id⟩

/-- Unit twiddle factors, enough to evaluate the pipeline concretely. -/
def testCtx : FFTCtx := ⟨⟨1, 0⟩, ⟨1, 0⟩, ⟨1, 0⟩, ⟨1, 0⟩⟩

/-- A concrete `1 × 1` all-ones image. -/
def oneImg : RImg 1 1 := fun _ _ => 1

/-- A concrete `1 × 1` zero spectrum. -/
def zeroImg : Img 1 1 := fun _ _ => CQ.zero

theorem fftshift2_even {h w : ℕ} {α : Type} (x : Fin (2 * h) → Fin (2 * w) → α) :
    fftshift2 x = ifftshift2 x := by
  unfold fftshift2 ifftshift2
  rw [show 2 * h - 2 * h / 2 = 2 * h / 2 from by omega,
    show 2 * w - 2 * w / 2 = 2 * w / 2 from by omega]

theorem runIters_cons {h w : ℕ} (ctx : FFTCtx) (dn : RImg h w → RImg h w)
    (Y Ht : Img (2 * h) (2 * w)) (HtH : RImg (2 * h) (2 * w))
    (rho : ℚ) (rest : List ℚ) (z u : RImg h w) :
    runIters ctx dn Y Ht HtH (rho :: rest) z u =
      dn (xUpdate ctx Y Ht HtH z u rho) ::
        runIters ctx dn Y Ht HtH rest (dn (xUpdate ctx Y Ht HtH z u rho))
          (rAdd u (rSub (xUpdate ctx Y Ht HtH z u rho)
            (dn (xUpdate ctx Y Ht HtH z u rho)))) := rfl

theorem runIters_ne_nil {h w : ℕ} (ctx : FFTCtx) (dn : RImg h w → RImg h w)
    (Y Ht : Img (2 * h) (2 * w)) (HtH : RImg (2 * h) (2 * w))
    (rhos : List ℚ) (z u : RImg h w) (hne : rhos ≠ []) :
    runIters ctx dn Y Ht HtH rhos z u ≠ [] := by
  cases rhos with
  | nil => exact absurd rfl hne
  | cons rho rest => rw [runIters_cons]; exact List.cons_ne_nil _ _

theorem getLastQ_cons_ne {α : Type} (a : α) (l : List α) (hl : l ≠ []) :
    (a :: l).getLast? = l.getLast? := by
  cases l with
  | nil => exact absurd rfl hl
  | cons b t => exact List.getLast?_cons_cons

theorem admmSpecRun_cons {h w : ℕ} (ctx : FFTCtx) (dn : RImg h w → RImg h w)
    (Y Ht : Img (2 * h) (2 * w)) (HtH : RImg (2 * h) (2 * w))
    (rho : ℚ) (rest : List ℚ) (s : RImg h w × RImg h w) :
    admmSpecRun ctx dn Y Ht HtH (rho :: rest) s =
      admmSpecRun ctx dn Y Ht HtH rest (admmSpecStep ctx dn Y Ht HtH rho s) := rfl

theorem admmSpecStep_eq {h w : ℕ} (ctx : FFTCtx) (dn : RImg h w → RImg h w)
    (Y Ht : Img (2 * h) (2 * w)) (HtH : RImg (2 * h) (2 * w))
    (rho : ℚ) (z u : RImg h w) :
    admmSpecStep ctx dn Y Ht HtH rho (z, u) =
      (dn (xUpdate ctx Y Ht HtH z u rho),
        rAdd u (rSub (xUpdate ctx Y Ht HtH z u rho)
          (dn (xUpdate ctx Y Ht HtH z u rho)))) := rfl

theorem runIters_getLast {h w : ℕ} (ctx : FFTCtx) (dn : RImg h w → RImg h w)
    (Y Ht : Img (2 * h) (2 * w)) (HtH : RImg (2 * h) (2 * w)) :
    ∀ (rhos : List ℚ) (z u : RImg h w), rhos ≠ [] →
      (runIters ctx dn Y Ht HtH rhos z u).getLast? =
        some (admmSpecRun ctx dn Y Ht HtH rhos (z, u)).1 := by
  intro rhos
  induction rhos with
  | nil => intro z u hne; exact absurd rfl hne
  | cons rho rest ih =>
    intro z u _
    cases rest with
    | nil =>
      simp [runIters, admmSpecRun, admmSpecStep]
    | cons r2 t =>
      rw [runIters_cons,
        getLastQ_cons_ne _ _ (runIters_ne_nil ctx dn Y Ht HtH _ _ _ (List.cons_ne_nil r2 t)),
        admmSpecRun_cons, admmSpecStep_eq]
      exact ih _ _ (List.cons_ne_nil r2 t)

/-- Claim C1: every iteration of the controller loop computes, in order,
the primal estimate `x` by the closed-form solver from the current `(z, u)`
and the iteration's weight `ρ_i`, then the new auxiliary estimate
`z' = denoise(x)`, then the dual update `u ← u + x − z'`; after the final
iteration the controller returns the auxiliary (denoised) estimate of the
last iteration — `forward` equals the first (auxiliary) component of the
`n`-fold `admmSpecStep` iteration started from the warm-started `(z, 0)`
pair, whenever at least one iteration runs. -/
theorem forward_returns_final_auxiliary {h w n : ℕ} (net : ADMMNet h w n)
    (ctx : FFTCtx) (y kernel : RImg h w) (alpha : ℚ) (hn : 1 ≤ n) :
    forward net ctx y kernel alpha =
      some (admmSpecRun ctx net.denoiseF (spectrumOf ctx (clampNonneg y))
        (cConj (spectrumOf ctx kernel)) (absSq (spectrumOf ctx kernel))
        (List.ofFn (schedule net kernel alpha))
        (init_l2 ctx (spectrumOf ctx (clampNonneg y))
          (cConj (spectrumOf ctx kernel)) (absSq (spectrumOf ctx kernel)) alpha,
         zerosLike y)).1 := by
  apply runIters_getLast
  rw [Ne, List.ofFn_eq_nil_iff]
  omega

/-- Witness for C1 at a concrete one-iteration controller on `1 × 1`
images. -/
theorem forward_returns_final_auxiliary_witness :
    1 ≤ 1 ∧
      forward testNet testCtx oneImg oneImg 1 =
        some (admmSpecRun testCtx testNet.denoiseF
          (spectrumOf testCtx (clampNonneg oneImg))
          (cConj (spectrumOf testCtx oneImg)) (absSq (spectrumOf testCtx oneImg))
          (List.ofFn (schedule testNet oneImg 1))
          (init_l2 testCtx (spectrumOf testCtx (clampNonneg oneImg))
            (cConj (spectrumOf testCtx oneImg)) (absSq (spectrumOf testCtx oneImg)) 1,
           zerosLike oneImg)).1 :=
  ⟨Nat.le_refl 1,
    forward_returns_final_auxiliary testNet testCtx oneImg oneImg 1 (Nat.le_refl 1)⟩

/-- Claim C2: the per-iteration solver returns `cropHalf` of the real part
of the inverse-shifted inverse FFT of
`(Ht·Y + FFT(shift(padDouble(ρ·z − u)))) / (ρ + HtH)`, the imaginary part
being discarded (`xUpdate`, whose result is a real tensor, agrees with the
specification's formula `xUpdateClaim`; the source's outgoing `fftshift`
coincides with the inverse shift at the even working size `2h × 2w`). -/
theorem xUpdate_matches_claim_formula {h w : ℕ} (ctx : FFTCtx)
    (Y Ht : Img (2 * h) (2 * w)) (HtH : RImg (2 * h) (2 * w))
    (z u : RImg h w) (rho : ℚ) :
    xUpdate ctx Y Ht HtH z u rho = xUpdateClaim ctx Y Ht HtH z u rho := by
  unfold xUpdate xUpdateClaim
  dsimp only
  rw [fftshift2_even]

/-- Claim C3: `cropHalf` is the exact left inverse of the centered
size-doubling zero-padding `padDouble`: `cropHalf(padDouble(X)) == X` for
every image `X`. -/
theorem cropHalf_padDouble {h w : ℕ} (x : RImg h w) : cropHalf (padDouble x) = x := by
  funext i j
  unfold cropHalf padDouble
  have hi : h / 2 ≤ h / 2 + i.val ∧ h / 2 + i.val < h / 2 + h := ⟨by omega, by omega⟩
  have hj : w / 2 ≤ w / 2 + j.val ∧ w / 2 + j.val < w / 2 + w := ⟨by omega, by omega⟩
  rw [dif_pos ⟨hi.1, hi.2, hj.1, hj.2⟩]
  congr 1 <;> · apply Fin.ext; simp

/-- Claim C4: with a strictly positive penalty weight `ρ`, every
elementwise bin of the solver's denominator `lhs = ρ + HtH`, with
`HtH = |H|²` as the controller computes it, is strictly positive, so the
frequency-domain division never divides by zero. -/
theorem xLhs_pos {h w : ℕ} (rho : ℚ) (H : Img h w) (hrho : 0 < rho) :
    ∀ k l, 0 < xLhs rho (absSq H) k l := by
  intro k l
  unfold xLhs absSq CQ.normSq
  have h1 : 0 ≤ (H k l).re * (H k l).re := mul_self_nonneg _
  have h2 : 0 ≤ (H k l).im * (H k l).im := mul_self_nonneg _
  linarith

/-- Witness for C4 at `ρ = 1` and the zero `1 × 1` spectrum. -/
theorem xLhs_pos_witness :
    0 < (1 : ℚ) ∧ ∀ k l, 0 < xLhs 1 (absSq zeroImg) k l :=
  ⟨by norm_num, xLhs_pos 1 zeroImg (by norm_num)⟩

/-- Counterexample to claim C5: in the fixed-constant weight-source mode the
schedule is the raw learned parameter vector, which nothing constrains to
the `1e-6` floor — a module whose learned constant is `-1` serves `-1` as
the weight for iteration 0. -/
theorem schedule_fixed_mode_below_floor :
    schedule negNet oneImg 1 0 = -1 ∧
      ¬ ((1 / 1000000 : ℚ) ≤ schedule negNet oneImg 1 0) := by
  constructor
  · rfl
  · intro hle
    rw [show schedule negNet oneImg 1 0 = -1 from rfl] at hle
    norm_num at hle

/-- Claim C5 as amended: in subnetwork mode every predicted weight is at
least the design floor `1e-6` for every kernel, noise scalar and learned
parameter set (given the non-negative range of the final activation, as
`Softplus` has); in fixed-constant mode the floor holds for the initial
all-ones constants, but is not enforced for arbitrary learned values. -/
theorem schedule_floor_amended :
    (∀ (n kh kw : ℕ) (p : SubNetP n), (∀ q, 0 ≤ p.act q) →
      ∀ (kernel : RImg kh kw) (alpha : ℚ) (i : Fin n),
        1 / 1000000 ≤ subnetForward p kernel alpha i) ∧
    ∀ (n : ℕ) (i : Fin n), initRhoIters n i = 1 ∧ (1 / 1000000 : ℚ) ≤ initRhoIters n i := by
  constructor
  · intro n kh kw p hact kernel alpha i
    unfold subnetForward
    exact le_add_of_nonneg_left (hact _)
  · intro n i
    exact ⟨rfl, by norm_num [initRhoIters]⟩

/-- Witness for the amended C5: the ReLU final activation is non-negative,
and the floor holds at the concrete predictor parameters and inputs and at
the initial fixed constants. -/
theorem schedule_floor_amended_witness :
    (∀ q : ℚ, 0 ≤ testSubNetP.act q) ∧
      (1 / 1000000 : ℚ) ≤ subnetForward testSubNetP oneImg 1 0 ∧
      initRhoIters 1 0 = 1 :=
  ⟨fun q => le_max_right q 0,
    schedule_floor_amended.1 1 1 1 testSubNetP (fun q => le_max_right q 0) oneImg 1 0,
    (schedule_floor_amended.2 1 0).1⟩

/-- Claim C6 (the code violates it): with zero configured iterations the
loop body never runs, `x_list` stays empty, and `x_list[-1]` fails — the
controller returns nothing at all rather than the Wiener warm start. -/
theorem forward_zero_iters_fails {h w : ℕ} (net : ADMMNet h w 0) (ctx : FFTCtx)
    (y kernel : RImg h w) (alpha : ℚ) :
    forward net ctx y kernel alpha = none := by
  unfold forward
  dsimp only
  rw [List.ofFn_zero]
  rfl

/-- Counterexample to claim C7: a `2 × 2` kernel with a `4 × 4` observed
image — the kernel is only padded to twice its own size (`4 × 4`), the
observation to `8 × 8`, and the frequency-domain product `Y * Ht` fails
with a broadcasting shape mismatch instead of succeeding. -/
theorem forwardS_smaller_kernel_fails : forwardS 1 (4, 4) (2, 2) = none := by decide

/-- Claim C7 as amended: the computation succeeds exactly when the kernel's
spatial shape equals the observed image's (each `pad_double` doubles its own
input, so a strictly smaller kernel produces mismatched spectra); with equal
shapes and at least one iteration the restored image has the observed
image's spatial shape. -/
theorem forwardS_equal_shapes (a b n : ℕ) (hn : 1 ≤ n) :
    forwardS n (a, b) (a, b) = some (a, b) := by
  have hself : ∀ s : ℕ × ℕ, bcastS s s = some s := by
    intro s
    simp [bcastS, bcastDim]
  have hdiv : ∀ m : ℕ, 2 * m / 2 = m := fun m => by omega
  have hcrop : cropHalfS (2 * a, 2 * b) = (a, b) := by
    simp [cropHalfS, hdiv]
  have hx : xUpdateS (2 * a, 2 * b) (2 * a, 2 * b) (a, b) (a, b) = some (a, b) := by
    rw [xUpdateS]
    simp [hself, padDoubleS, hcrop]
  have hloop : ∀ k, shapeLoop (2 * a, 2 * b) (2 * a, 2 * b) k (a, b) (a, b) =
      some ((a, b), (a, b)) := by
    intro k
    induction k with
    | zero => rfl
    | succ m ih =>
      rw [shapeLoop]
      simp [hx, hself, ih]
  have hinit : initL2S (2 * a, 2 * b) (2 * a, 2 * b) = some (a, b) := by
    rw [initL2S]
    simp [hself, hcrop]
  have hn0 : n ≠ 0 := by omega
  rw [forwardS]
  simp [hself, padDoubleS, hinit, hloop, hn0]

/-- Witness for the amended C7 at one iteration on a `4 × 4` image and an
equal-shape kernel. -/
theorem forwardS_equal_shapes_witness :
    1 ≤ 1 ∧ forwardS 1 (4, 4) (4, 4) = some (4, 4) :=
  ⟨Nat.le_refl 1, forwardS_equal_shapes 4 4 1 (Nat.le_refl 1)⟩

theorem getLastQ_map {α β : Type} (g : α → β) :
    ∀ l : List α, (l.map g).getLast? = (l.getLast?).map g := by
  intro l
  induction l with
  | nil => rfl
  | cons a t ih =>
    cases t with
    | nil => rfl
    | cons b t2 =>
      have ih2 := ih
      rw [List.map_cons] at ih2
      rw [List.map_cons, List.map_cons, List.getLast?_cons_cons, ih2,
        List.getLast?_cons_cons]

theorem bRunIters_cons {B h w : ℕ} (ctx : FFTCtx) (dn : RImg h w → RImg h w)
    (Y Ht : BImg B (2 * h) (2 * w)) (HtH : Fin B → RImg (2 * h) (2 * w))
    (rho : Fin B → ℚ) (rest : List (Fin B → ℚ)) (z u : BRImg B h w) :
    bRunIters ctx dn Y Ht HtH (rho :: rest) z u =
      (fun b => dn (xUpdate ctx (Y b) (Ht b) (HtH b) (z b) (u b) (rho b))) ::
        bRunIters ctx dn Y Ht HtH rest
          (fun b => dn (xUpdate ctx (Y b) (Ht b) (HtH b) (z b) (u b) (rho b)))
          (fun b => rAdd (u b) (rSub (xUpdate ctx (Y b) (Ht b) (HtH b) (z b) (u b) (rho b))
            (dn (xUpdate ctx (Y b) (Ht b) (HtH b) (z b) (u b) (rho b))))) := rfl

theorem bRunIters_proj {B h w : ℕ} (ctx : FFTCtx) (dn : RImg h w → RImg h w)
    (Y Ht : BImg B (2 * h) (2 * w)) (HtH : Fin B → RImg (2 * h) (2 * w)) (b : Fin B) :
    ∀ (rhos : List (Fin B → ℚ)) (z u : BRImg B h w),
      (bRunIters ctx dn Y Ht HtH rhos z u).map (fun F => F b) =
        runIters ctx dn (Y b) (Ht b) (HtH b) (rhos.map (fun r => r b)) (z b) (u b) := by
  intro rhos
  induction rhos with
  | nil => intro z u; rfl
  | cons rho rest ih =>
    intro z u
    rw [bRunIters_cons, List.map_cons, List.map_cons, runIters_cons, ih]

theorem bSchedule_proj {B h w n : ℕ} (net : ADMMNet h w n) (kernel : BRImg B h w)
    (alpha : Fin B → ℚ) (b : Fin B) :
    bSchedule net kernel alpha b = schedule net (kernel b) (alpha b) := by
  by_cases hs : net.subnet <;> simp [bSchedule, schedule, bSubnetForward, hs]

/-- Claim C8: restoring a batch of unrelated (image, kernel, noise-scalar)
triples produces, at each batch index, exactly the output of restoring that
element alone — no cross-batch-element data dependency exists anywhere in
the pipeline, the penalty-weight predictor included (every torch operation
involved acts independently per leading batch index). -/
theorem batch_independence {B h w n : ℕ} (net : ADMMNet h w n) (ctx : FFTCtx)
    (y kernel : BRImg B h w) (alpha : Fin B → ℚ) (b : Fin B) :
    (bForward net ctx y kernel alpha).map (fun F => F b) =
      forward net ctx (y b) (kernel b) (alpha b) := by
  unfold bForward forward
  rw [← getLastQ_map, bRunIters_proj, List.map_ofFn]
  have hsched : ((fun r => r b) ∘ fun i b' => bSchedule net kernel alpha b' i) =
      schedule net (kernel b) (alpha b) := by
    funext i
    exact congrFun (bSchedule_proj net kernel alpha b) i
  rw [hsched]

/-- Claim C9: the controller first clamps the observed image elementwise to
non-negative values, so `restore(y, ...)` equals `restore(max(y,0), ...)`;
and the loop is entered with the dual variable initialised to the all-zero
tensor of the observed image's shape. -/
theorem forward_clamps_and_zero_dual {h w n : ℕ} (net : ADMMNet h w n)
    (ctx : FFTCtx) (y kernel : RImg h w) (alpha : ℚ) :
    forward net ctx y kernel alpha = forward net ctx (clampNonneg y) kernel alpha ∧
      (forward net ctx y kernel alpha =
        (runIters ctx net.denoiseF (spectrumOf ctx (clampNonneg y))
          (cConj (spectrumOf ctx kernel)) (absSq (spectrumOf ctx kernel))
          (List.ofFn (schedule net kernel alpha))
          (init_l2 ctx (spectrumOf ctx (clampNonneg y))
            (cConj (spectrumOf ctx kernel)) (absSq (spectrumOf ctx kernel)) alpha)
          (zerosLike y)).getLast? ∧
        ∀ i j, zerosLike y i j = 0) := by
  refine ⟨?_, rfl, fun i j => rfl⟩
  have hclamp : clampNonneg (clampNonneg y) = clampNonneg y := by
    funext i j
    exact max_eq_left (le_max_right (y i j) 0)
  unfold forward
  rw [hclamp]
  rfl

/-- Claim C10: the warm-start denominator is `HtH + 1/alpha`; for every
`alpha > 0` each bin is strictly positive (so the Wiener warm start never
divides by zero), while `alpha = 0` is not guarded and makes `1/alpha`
itself a division by zero — `alpha > 0` is an unstated precondition of the
controller. -/
theorem init_l2_alpha_guard {h w : ℕ} :
    (∀ (H : Img h w) (alpha : ℚ), 0 < alpha →
      (∀ k l, 0 < initL2Lhs (absSq H) alpha k l) ∧
        ¬ initDivByZero (absSq H) alpha) ∧
      ∀ HtH : RImg h w, initDivByZero HtH 0 := by
  constructor
  · intro H alpha ha
    have hpos : ∀ k l, 0 < initL2Lhs (absSq H) alpha k l := by
      intro k l
      unfold initL2Lhs absSq CQ.normSq
      have h1 : 0 < 1 / alpha := by positivity
      have h2 : 0 ≤ (H k l).re * (H k l).re := mul_self_nonneg _
      have h3 : 0 ≤ (H k l).im * (H k l).im := mul_self_nonneg _
      linarith
    refine ⟨hpos, ?_⟩
    rintro (h0 | ⟨k, l, hkl⟩)
    · exact absurd h0 (ne_of_gt ha)
    · exact absurd hkl (ne_of_gt (hpos k l))
  · intro HtH
    exact Or.inl rfl

/-- Witness for C10 at `alpha = 1` and the zero `1 × 1` spectrum. -/
theorem init_l2_alpha_guard_witness :
    0 < (1 : ℚ) ∧
      ((∀ k l, 0 < initL2Lhs (absSq zeroImg) 1 k l) ∧
        ¬ initDivByZero (absSq zeroImg) 1) :=
  ⟨by norm_num, (init_l2_alpha_guard (h := 1) (w := 1)).1 zeroImg 1 (by norm_num)⟩
